import Mathlib

/-!
Verification of the css-structs parser/serializer pipeline.

The Rust source is shallowly embedded over `List Char`:
* `CSSDeclaration.parse`      ← src/css_declaration.rs
* `CSSDeclarationList.parse`  ← src/css_declaration_list.rs
* `CSSRule.parse`             ← src/css_rule.rs
* `Stylesheet.parse`          ← src/stylesheet.rs
nom combinators are translated point-wise: `IResult<&str, T>` becomes
`Option (T × List Char)` (remaining input paired with the value), `many0`
becomes a fueled loop with nom's consumption check, and `str::trim`
becomes `trimList` over the Unicode White_Space code points.
-/

/-- nom `multispace0` character class: space, tab, carriage return, line feed. -/
def nomMultispace (c : Char) : Bool :=
  c = ' ' || c = '\t' || c = '\r' || c = '\n'

/-- Rust `char::is_whitespace`: the Unicode White_Space code points.
Used by `str::trim` in `parse_value` and `parse_selector`. -/
def rustWhitespace (c : Char) : Bool :=
  (9 ≤ c.toNat && c.toNat ≤ 13) || c.toNat = 32 || c.toNat = 133 || c.toNat = 160 ||
  c.toNat = 5760 || (8192 ≤ c.toNat && c.toNat ≤ 8202) || c.toNat = 8232 ||
  c.toNat = 8233 || c.toNat = 8239 || c.toNat = 8287 || c.toNat = 12288

/-- helpers.rs `is_non_ascii`: code point strictly above 127. -/
def is_non_ascii (c : Char) : Bool :=
  decide (127 < c.toNat)

/-- First identifier character: `c.is_alphabetic() || c == '_' || c == '-' || is_non_ascii(c)`.
Rust's `is_alphabetic` is Unicode-alphabetic, but on code points ≤ 127 it coincides
with ASCII `Char.isAlpha`, and on code points > 127 the `is_non_ascii` disjunct
already holds, so the whole disjunction is unchanged. -/
def identFirst (c : Char) : Bool :=
  c.isAlpha || c = '_' || c = '-' || is_non_ascii c

/-- Subsequent identifier character:
`c.is_alphanumeric() || c == '-' || c == '_' || is_non_ascii(c)`
(same ASCII/non-ASCII reduction as `identFirst`). -/
def identRest (c : Char) : Bool :=
  c.isAlphanum || c = '-' || c = '_' || is_non_ascii c

/-- Character allowed inside a raw value: nom `is_not(";{}!")`. -/
def valOk (c : Char) : Bool :=
  !(c = ';' || c = '\x7b' || c = '\x7d' || c = '!')

/-- Right half of Rust `str::trim`: drop trailing White_Space characters. -/
def trimRight (l : List Char) : List Char :=
  (l.reverse.dropWhile rustWhitespace).reverse

/-- Rust `str::trim`: drop leading and trailing White_Space characters. -/
def trimList (l : List Char) : List Char :=
  trimRight (l.dropWhile rustWhitespace)

/-- nom `tag`: match a literal prefix, return the rest. -/
def tagP (lit input : List Char) : Option (List Char) :=
  if lit.isPrefixOf input then some (input.drop lit.length) else none

/-- css_declaration.rs `CSSDeclaration` struct. Strings are `List Char`. -/
structure CSSDeclaration where
  name : List Char
  value : List Char
  important : Bool
deriving DecidableEq

namespace CSSDeclaration

/-- css_declaration.rs `parse_identifier`:
`recognize(pair(take_while1 identFirst, take_while identRest))`. -/
def parse_identifier (input : List Char) : Option (List Char × List Char) :=
  match input.takeWhile identFirst with
  | [] => none
  | c :: cs =>
      let rest1 := input.dropWhile identFirst
      some ((c :: cs) ++ rest1.takeWhile identRest, rest1.dropWhile identRest)

/-- The `opt(preceded(multispace0, preceded(tag("!"), preceded(multispace0, tag("important")))))`
suffix of `parse_value`, returning the remaining input on a match. -/
def parse_important (input : List Char) : Option (List Char) :=
  match input.dropWhile nomMultispace with
  | '!' :: i2 => tagP "important".data (i2.dropWhile nomMultispace)
  | _ => none

/-- css_declaration.rs `parse_value`: `is_not(";{}!")` trimmed, then the
optional `!important` suffix. -/
def parse_value (input : List Char) : Option ((List Char × Bool) × List Char) :=
  match input.takeWhile valOk with
  | [] => none
  | _ :: _ =>
      match parse_important (input.dropWhile valOk) with
      | some rest2 => some ((trimList (input.takeWhile valOk), true), rest2)
      | none => some ((trimList (input.takeWhile valOk), false), input.dropWhile valOk)

/-- css_declaration.rs `parse_declaration`:
`separated_pair(preceded(multispace0, parse_identifier),
delimited(multispace0, char(':'), multispace0), parse_value)`. -/
def parse_declaration (input : List Char) :
    Option ((List Char × (List Char × Bool)) × List Char) :=
  match parse_identifier (input.dropWhile nomMultispace) with
  | none => none
  | some (name, i2) =>
      match i2.dropWhile nomMultispace with
      | ':' :: i4 =>
          match parse_value (i4.dropWhile nomMultispace) with
          | none => none
          | some (vp, i6) => some ((name, vp), i6)
      | _ => none

/-- css_declaration.rs `CSSDeclaration::parse`. -/
def parse (input : List Char) : Option (CSSDeclaration × List Char) :=
  match parse_declaration input with
  | none => none
  | some ((name, (value, important)), rest) => some (⟨name, value, important⟩, rest)

/-- css_declaration.rs `CSSDeclaration::from_string` (drops the remainder). -/
def from_string (input : List Char) : Option CSSDeclaration :=
  match parse input with
  | none => none
  | some (d, _) => some d

/-- css_declaration.rs `impl fmt::Display for CSSDeclaration`:
`"{}: {};"` or `"{}: {} !important;"`. -/
def display (d : CSSDeclaration) : List Char :=
  d.name ++ ": ".data ++ d.value ++
    (if d.important then " !important;".data else ";".data)

end CSSDeclaration

/-- nom `many0`, fueled. nom's `many0` aborts with an error when the inner
parser succeeds without consuming input (`i1.input_len() == len` check), which
the `rest.length < input.length` guard mirrors; the guard also makes the fuel
`input.length + 1` in `many0` always sufficient. -/
def many0Go {α : Type} (p : List Char → Option (α × List Char)) :
    Nat → List Char → Option (List α × List Char)
  | 0, _ => none
  | fuel + 1, input =>
      match p input with
      | none => some ([], input)
      | some (a, rest) =>
          if rest.length < input.length then
            match many0Go p fuel rest with
            | none => none
            | some (as, r) => some (a :: as, r)
          else none

/-- nom `many0` on `List Char` input. -/
def many0 {α : Type} (p : List Char → Option (α × List Char))
    (input : List Char) : Option (List α × List Char) :=
  many0Go p (input.length + 1) input

/-- The `many0(delimited(multispace0, char(';'), multispace0))` stray-separator
eater of `parse_declarations`, fueled. Returns the input unchanged when the
first non-whitespace character is not `;` (nom restores the input of a failed
iteration). -/
def dropStraysGo : Nat → List Char → List Char
  | 0, input => input
  | fuel + 1, input =>
      match input.dropWhile nomMultispace with
      | ';' :: i2 => dropStraysGo fuel (i2.dropWhile nomMultispace)
      | _ => input

/-- Stray-separator eater with sufficient fuel. -/
def dropStrays (input : List Char) : List Char :=
  dropStraysGo (input.length + 1) input

/-- One iteration of css_declaration_list.rs `parse_declarations`:
`preceded(many0(delimited(multispace0, char(';'), multispace0)),
delimited(multispace0, CSSDeclaration::parse, opt(char(';'))))`. -/
def declItem (input : List Char) : Option (CSSDeclaration × List Char) :=
  match CSSDeclaration.parse ((dropStrays input).dropWhile nomMultispace) with
  | none => none
  | some (d, i3) =>
      match i3 with
      | ';' :: i4 => some (d, i4)
      | _ => some (d, i3)

/-- css_declaration_list.rs `CSSDeclarationList` struct. -/
structure CSSDeclarationList where
  declarations : List CSSDeclaration
deriving DecidableEq

namespace CSSDeclarationList

/-- css_declaration_list.rs `parse_declarations`: `many0` of one declaration
item. -/
def parse_declarations (input : List Char) :
    Option (List CSSDeclaration × List Char) :=
  many0 declItem input

/-- css_declaration_list.rs `CSSDeclarationList::parse`. -/
def parse (input : List Char) : Option (CSSDeclarationList × List Char) :=
  match parse_declarations input with
  | none => none
  | some (ds, rest) => some (⟨ds⟩, rest)

/-- css_declaration_list.rs `CSSDeclarationList::from_string`. -/
def from_string (input : List Char) : Option CSSDeclarationList :=
  match parse input with
  | none => none
  | some (l, _) => some l

/-- css_declaration_list.rs `remove_declaration`: retain declarations whose
name differs. -/
def remove_declaration (l : CSSDeclarationList) (declName : List Char) :
    CSSDeclarationList :=
  ⟨l.declarations.filter (fun d => d.name ≠ declName)⟩

/-- Rust `join(" ")` over serialized declarations. -/
def joinSpace : List (List Char) → List Char
  | [] => []
  | [x] => x
  | x :: y :: xs => x ++ ' ' :: joinSpace (y :: xs)

/-- css_declaration_list.rs `impl fmt::Display`: declarations joined by one
space. -/
def display (l : CSSDeclarationList) : List Char :=
  joinSpace (l.declarations.map CSSDeclaration.display)

end CSSDeclarationList

/-- css_rule.rs `CSSRule` struct. -/
structure CSSRule where
  selector : List Char
  declarations : CSSDeclarationList
deriving DecidableEq

namespace CSSRule

/-- css_rule.rs `parse_selector`: `terminated(take_until("{"), char('{'))`,
then Rust `trim` on the consumed text. -/
def parse_selector (input : List Char) : Option (List Char × List Char) :=
  match input.dropWhile (fun c => !(c = '\x7b')) with
  | '\x7b' :: rest => some (trimList (input.takeWhile (fun c => !(c = '\x7b'))), rest)
  | _ => none

/-- css_rule.rs `parse_declarations_block`:
`terminated(delimited(multispace0, CSSDeclarationList::parse, multispace0), char('}'))`. -/
def parse_declarations_block (input : List Char) :
    Option (CSSDeclarationList × List Char) :=
  match CSSDeclarationList.parse (input.dropWhile nomMultispace) with
  | none => none
  | some (ds, i2) =>
      match i2.dropWhile nomMultispace with
      | '\x7d' :: i3 => some (ds, i3)
      | _ => none

/-- css_rule.rs `CSSRule::parse`: selector, then declaration block. -/
def parse (input : List Char) : Option (CSSRule × List Char) :=
  match parse_selector input with
  | none => none
  | some (selector, i1) =>
      match parse_declarations_block i1 with
      | none => none
      | some (declarations, i2) => some (⟨selector, declarations⟩, i2)

/-- css_rule.rs `CSSRule::from_string`. -/
def from_string (input : List Char) : Option CSSRule :=
  match parse input with
  | none => none
  | some (r, _) => some r

/-- css_rule.rs `impl fmt::Display`: `"{} {{ {} }}"`. -/
def display (r : CSSRule) : List Char :=
  r.selector ++ " \x7b ".data ++ r.declarations.display ++ " \x7d".data

end CSSRule

/-- stylesheet.rs `Stylesheet` struct. -/
structure Stylesheet where
  rules : List CSSRule
deriving DecidableEq

namespace Stylesheet

/-- stylesheet.rs `Stylesheet::parse`: `many0(CSSRule::parse)`. -/
def parse (input : List Char) : Option (List CSSRule × List Char) :=
  many0 CSSRule.parse input

/-- stylesheet.rs `Stylesheet::from_string` (drops the remainder). -/
def from_string (input : List Char) : Option Stylesheet :=
  match parse input with
  | none => none
  | some (rules, _) => some ⟨rules⟩

/-- stylesheet.rs `impl fmt::Display`: rules joined by one space. -/
def display (s : Stylesheet) : List Char :=
  CSSDeclarationList.joinSpace (s.rules.map CSSRule.display)

end Stylesheet

/-- Invariant package carried by every declaration produced by
`CSSDeclaration.parse`. -/
def declInv (d : CSSDeclaration) : Prop :=
  d.name ≠ [] ∧ identFirst d.name.headI = true ∧ (∀ c ∈ d.name, identRest c = true) ∧
    trimList d.value = d.value ∧ (∀ c ∈ d.value, valOk c = true)

/-- Full invariant of a round-trippable declaration (`declInv` plus a
non-empty value). -/
def declGood (d : CSSDeclaration) : Prop := declInv d ∧ d.value ≠ []

/-- Full invariant of a round-trippable rule. -/
def ruleGood (r : CSSRule) : Prop :=
  trimList r.selector = r.selector ∧ '\x7b' ∉ r.selector ∧
    ∀ d ∈ r.declarations.declarations, declGood d

/-- Invariant carried by every rule produced by `CSSRule.parse`. -/
def ruleInvP (r : CSSRule) : Prop :=
  trimList r.selector = r.selector ∧ '\x7b' ∉ r.selector ∧
    ∀ d ∈ r.declarations.declarations, declInv d

/-- The part of the parsed-declaration invariant that actually holds: name
non-empty, value free of `;{}!`, value trim-invariant (no leading or
trailing whitespace). Non-emptiness of the value is *not* guaranteed. -/
def declPartInv (d : CSSDeclaration) : Prop :=
  d.name ≠ [] ∧ (∀ c ∈ d.value, valOk c = true) ∧ trimList d.value = d.value

/-! ### takeWhile / dropWhile toolkit -/

theorem dropWhile_head_false {p : Char → Bool} {l : List Char} {c : Char} {t : List Char}
    (h : l.dropWhile p = c :: t) : p c = false := by
  induction l with
  | nil => cases h
  | cons a l ih =>
      by_cases ha : p a
      · rw [List.dropWhile_cons_of_pos ha] at h
        exact ih h
      · rw [List.dropWhile_cons_of_neg ha] at h
        cases h
        simpa using ha

theorem dropWhile_dropWhile (p : Char → Bool) (l : List Char) :
    (l.dropWhile p).dropWhile p = l.dropWhile p := by
  cases h : l.dropWhile p with
  | nil => rfl
  | cons c t => exact List.dropWhile_cons_of_neg (by simp [dropWhile_head_false h])

theorem takeWhile_stop {p : Char → Bool} {xs : List Char} {y : Char} (ys : List Char)
    (hxs : ∀ a ∈ xs, p a = true) (hy : p y = false) :
    (xs ++ y :: ys).takeWhile p = xs := by
  rw [List.takeWhile_append_of_pos hxs, List.takeWhile_cons_of_neg (by simp [hy]),
    List.append_nil]

theorem dropWhile_stop {p : Char → Bool} {xs : List Char} {y : Char} (ys : List Char)
    (hxs : ∀ a ∈ xs, p a = true) (hy : p y = false) :
    (xs ++ y :: ys).dropWhile p = y :: ys := by
  rw [List.dropWhile_append_of_pos hxs, List.dropWhile_cons_of_neg (by simp [hy])]

theorem takeWhile_all {p : Char → Bool} {xs : List Char} (hxs : ∀ a ∈ xs, p a = true) :
    xs.takeWhile p = xs := by
  have := @List.takeWhile_append_of_pos Char p xs [] hxs
  simpa using this

theorem dropWhile_all {p : Char → Bool} {xs : List Char} (hxs : ∀ a ∈ xs, p a = true) :
    xs.dropWhile p = [] := by
  have := @List.dropWhile_append_of_pos Char p xs [] hxs
  simpa using this

/-- Chaining a `takeWhile p` run into a `takeWhile q` run when `p` implies `q`
(the `recognize(pair(take_while1, take_while))` shape of `parse_identifier`). -/
theorem takeWhile_chain {p q : Char → Bool} (hpq : ∀ c, p c = true → q c = true)
    (l : List Char) :
    l.takeWhile p ++ (l.dropWhile p).takeWhile q = l.takeWhile q ∧
      (l.dropWhile p).dropWhile q = l.dropWhile q := by
  induction l with
  | nil => simp
  | cons a l ih =>
      by_cases ha : p a
      · have hqa : q a = true := hpq a ha
        simp [List.takeWhile_cons_of_pos, List.dropWhile_cons_of_pos, ha, hqa, ih.1, ih.2]
      · simp [List.takeWhile_cons_of_neg ha, List.dropWhile_cons_of_neg ha]

theorem length_dropWhile_le (p : Char → Bool) (l : List Char) :
    (l.dropWhile p).length ≤ l.length :=
  (List.dropWhile_suffix p).length_le

/-! ### Rust `str::trim` toolkit -/

theorem ms_imp_ws {c : Char} (h : nomMultispace c = true) : rustWhitespace c = true := by
  simp only [nomMultispace, Bool.or_eq_true, decide_eq_true_eq] at h
  rcases h with ((rfl | rfl) | rfl) | rfl <;> decide

theorem trimRight_append_ws {v w : List Char} (hw : ∀ c ∈ w, rustWhitespace c = true) :
    trimRight (v ++ w) = trimRight v := by
  unfold trimRight
  rw [List.reverse_append, List.dropWhile_append_of_pos (by
    intro a ha; exact hw a (by simpa using ha))]

theorem trimList_ws_append {w v : List Char} (hw : ∀ c ∈ w, rustWhitespace c = true) :
    trimList (w ++ v) = trimList v := by
  unfold trimList
  rw [List.dropWhile_append_of_pos hw]

theorem trimList_append_ws {v w : List Char} (hw : ∀ c ∈ w, rustWhitespace c = true) :
    trimList (v ++ w) = trimList v := by
  unfold trimList
  cases hdw : v.dropWhile rustWhitespace with
  | nil =>
      rw [List.dropWhile_append, hdw]
      simp only [List.isEmpty_nil, if_true]
      rw [dropWhile_all hw]
  | cons c t =>
      rw [List.dropWhile_append, hdw]
      simp only [List.isEmpty_cons, if_false]
      exact trimRight_append_ws hw

theorem trimRight_prefix_self (l : List Char) : trimRight l <+: l := by
  obtain ⟨t, ht⟩ := List.dropWhile_suffix (l := l.reverse) rustWhitespace
  refine ⟨t.reverse, ?_⟩
  show (l.reverse.dropWhile rustWhitespace).reverse ++ t.reverse = l
  rw [← List.reverse_append, ht, List.reverse_reverse]

theorem trimRight_idem (l : List Char) : trimRight (trimRight l) = trimRight l := by
  unfold trimRight
  rw [List.reverse_reverse, dropWhile_dropWhile]

theorem dropWhile_ws_trimRight (l : List Char)
    (h : l.dropWhile rustWhitespace = l) :
    (trimRight l).dropWhile rustWhitespace = trimRight l := by
  cases ht : trimRight l with
  | nil => rfl
  | cons c t =>
      have hpre : trimRight l <+: l := trimRight_prefix_self l
      rw [ht] at hpre
      obtain ⟨s, hs⟩ := hpre
      have hl : l = c :: (t ++ s) := by rw [← hs]; simp
      have hc : rustWhitespace c = false := by
        have := dropWhile_head_false (l := l) (c := c) (t := t ++ s) (by rw [h, hl])
        exact this
      exact List.dropWhile_cons_of_neg (by simp [hc])

theorem trimList_idem (l : List Char) : trimList (trimList l) = trimList l := by
  unfold trimList
  rw [dropWhile_ws_trimRight (l.dropWhile rustWhitespace) (dropWhile_dropWhile _ _),
    trimRight_idem]

theorem length_trimRight_le (l : List Char) : (trimRight l).length ≤ l.length :=
  (trimRight_prefix_self l).length_le

theorem dropWhile_ws_of_trimList_eq {v : List Char} (h : trimList v = v) :
    v.dropWhile rustWhitespace = v := by
  have h1 : (trimList v).length ≤ (v.dropWhile rustWhitespace).length := by
    unfold trimList; exact length_trimRight_le _
  have h2 : (v.dropWhile rustWhitespace).length ≤ v.length := length_dropWhile_le _ _
  have hlen : (v.dropWhile rustWhitespace).length = v.length := by
    rw [h] at h1; omega
  exact (List.dropWhile_suffix rustWhitespace).eq_of_length hlen

theorem dropWhile_ms_of_trimList_eq {v : List Char} (h : trimList v = v) :
    v.dropWhile nomMultispace = v := by
  cases hv : v with
  | nil => rfl
  | cons c t =>
      have hws : rustWhitespace c = false := by
        subst hv
        exact dropWhile_head_false ((dropWhile_ws_of_trimList_eq h).trans rfl)
      have hms : nomMultispace c = false := by
        cases hm : nomMultispace c with
        | false => rfl
        | true => rw [ms_imp_ws hm] at hws; cases hws
      exact List.dropWhile_cons_of_neg (by simp [hms])

theorem mem_trimList {c : Char} {l : List Char} (h : c ∈ trimList l) : c ∈ l := by
  unfold trimList trimRight at h
  rw [List.mem_reverse] at h
  have h2 := (List.dropWhile_suffix rustWhitespace).subset h
  rw [List.mem_reverse] at h2
  exact (List.dropWhile_suffix rustWhitespace).subset h2

/-! ### many0 toolkit -/

theorem many0Go_fuel_irrel {α : Type} (p : List Char → Option (α × List Char)) :
    ∀ (f₁ f₂ : Nat) (input : List Char), input.length < f₁ → input.length < f₂ →
      many0Go p f₁ input = many0Go p f₂ input := by
  intro f₁
  induction f₁ with
  | zero => intro f₂ input h _; exact absurd h (Nat.not_lt_zero _)
  | succ f ih =>
      intro f₂ input h1 h2
      cases f₂ with
      | zero => exact absurd h2 (Nat.not_lt_zero _)
      | succ f' =>
          simp only [many0Go]
          cases hp : p input with
          | none => rfl
          | some ar =>
              obtain ⟨a, rest⟩ := ar
              by_cases hlen : rest.length < input.length
              · simp only [hlen, if_true]
                rw [ih f' rest (by omega) (by omega)]
              · simp [hlen]

/-- `many0` when the inner parser fails immediately. -/
theorem many0_none {α : Type} {p : List Char → Option (α × List Char)} {input : List Char}
    (hp : p input = none) : many0 p input = some ([], input) := by
  unfold many0
  conv_lhs => rw [show input.length + 1 = Nat.succ input.length from rfl]
  simp only [many0Go, hp]

/-- `many0` when the inner parser succeeds and consumes input. -/
theorem many0_cons {α : Type} {p : List Char → Option (α × List Char)} {input : List Char}
    {a : α} {rest : List Char} (hp : p input = some (a, rest))
    (hlen : rest.length < input.length) :
    many0 p input = Option.map (fun pr => (a :: pr.1, pr.2)) (many0 p rest) := by
  have key : many0Go p (input.length + 1) input
      = Option.map (fun pr => (a :: pr.1, pr.2)) (many0Go p (rest.length + 1) rest) := by
    generalize hR : many0Go p (rest.length + 1) rest = R
    conv_lhs => rw [show input.length + 1 = Nat.succ input.length from rfl]
    simp only [many0Go, hp, if_pos hlen]
    rw [many0Go_fuel_irrel p input.length (rest.length + 1) rest (by omega) (by omega), hR]
    cases R with
    | none => rfl
    | some x => rfl
  exact key

theorem many0Go_isSome {α : Type} {p : List Char → Option (α × List Char)}
    (hp : ∀ inp a r, p inp = some (a, r) → r.length < inp.length) :
    ∀ (fuel : Nat) (input : List Char), input.length < fuel →
      (many0Go p fuel input).isSome = true := by
  intro fuel
  induction fuel with
  | zero => intro input h; exact absurd h (Nat.not_lt_zero _)
  | succ f ih =>
      intro input h
      simp only [many0Go]
      cases hpi : p input with
      | none => rfl
      | some ar =>
          obtain ⟨a, rest⟩ := ar
          have hlt := hp input a rest hpi
          simp only [hlt, if_true]
          have hrec := ih rest (by omega)
          cases hm : many0Go p f rest with
          | none => rw [hm] at hrec; cases hrec
          | some x => rfl

theorem many0_isSome {α : Type} {p : List Char → Option (α × List Char)}
    (hp : ∀ inp a r, p inp = some (a, r) → r.length < inp.length) (input : List Char) :
    (many0 p input).isSome = true :=
  many0Go_isSome hp (input.length + 1) input (by omega)

theorem many0Go_mem {α : Type} {p : List Char → Option (α × List Char)} {Q : α → Prop}
    (hq : ∀ inp a r, p inp = some (a, r) → Q a) :
    ∀ (fuel : Nat) (input : List Char) (as : List α) (r : List Char),
      many0Go p fuel input = some (as, r) → ∀ a ∈ as, Q a := by
  intro fuel
  induction fuel with
  | zero => intro input as r h; cases h
  | succ f ih =>
      intro input as r h
      simp only [many0Go] at h
      cases hpi : p input with
      | none =>
          rw [hpi] at h
          simp only [Option.some.injEq, Prod.mk.injEq] at h
          obtain ⟨h1, _⟩ := h
          subst h1
          intro a ha; cases ha
      | some ar =>
          obtain ⟨a0, rest⟩ := ar
          rw [hpi] at h
          simp only at h
          by_cases hlen : rest.length < input.length
          · rw [if_pos hlen] at h
            cases hm : many0Go p f rest with
            | none => rw [hm] at h; cases h
            | some x =>
                obtain ⟨as', r'⟩ := x
                rw [hm] at h
                simp only [Option.some.injEq, Prod.mk.injEq] at h
                obtain ⟨h1, _⟩ := h
                subst h1
                intro a ha
                rcases List.mem_cons.mp ha with rfl | ha'
                · exact hq input a rest hpi
                · exact ih rest as' r' hm a ha'
          · rw [if_neg hlen] at h; cases h

theorem many0_mem {α : Type} {p : List Char → Option (α × List Char)} {Q : α → Prop}
    (hq : ∀ inp a r, p inp = some (a, r) → Q a) {input : List Char}
    {as : List α} {r : List Char} (h : many0 p input = some (as, r)) :
    ∀ a ∈ as, Q a :=
  many0Go_mem hq (input.length + 1) input as r h

theorem many0Go_suffix {α : Type} {p : List Char → Option (α × List Char)}
    (hs : ∀ inp a r, p inp = some (a, r) → r <:+ inp) :
    ∀ (fuel : Nat) (input : List Char) (as : List α) (r : List Char),
      many0Go p fuel input = some (as, r) → r <:+ input := by
  intro fuel
  induction fuel with
  | zero => intro input as r h; cases h
  | succ f ih =>
      intro input as r h
      simp only [many0Go] at h
      cases hpi : p input with
      | none =>
          rw [hpi] at h
          simp only [Option.some.injEq, Prod.mk.injEq] at h
          obtain ⟨_, h2⟩ := h
          subst h2
          exact List.suffix_refl _
      | some ar =>
          obtain ⟨a0, rest⟩ := ar
          rw [hpi] at h
          simp only at h
          by_cases hlen : rest.length < input.length
          · rw [if_pos hlen] at h
            cases hm : many0Go p f rest with
            | none => rw [hm] at h; cases h
            | some x =>
                obtain ⟨as', r'⟩ := x
                rw [hm] at h
                simp only [Option.some.injEq, Prod.mk.injEq] at h
                obtain ⟨_, h2⟩ := h
                subst h2
                exact (ih rest as' r' hm).trans (hs input a0 rest hpi)
          · rw [if_neg hlen] at h; cases h

theorem many0_suffix {α : Type} {p : List Char → Option (α × List Char)}
    (hs : ∀ inp a r, p inp = some (a, r) → r <:+ inp) {input : List Char}
    {as : List α} {r : List Char} (h : many0 p input = some (as, r)) : r <:+ input :=
  many0Go_suffix hs (input.length + 1) input as r h

/-! ### dropStrays toolkit -/

theorem dropStraysGo_suffix : ∀ (fuel : Nat) (input : List Char),
    dropStraysGo fuel input <:+ input := by
  intro fuel
  induction fuel with
  | zero => intro input; exact List.suffix_refl _
  | succ f ih =>
      intro input
      simp only [dropStraysGo]
      split
      · rename_i i2 heq
        have h1 : dropStraysGo f (i2.dropWhile nomMultispace) <:+ i2.dropWhile nomMultispace :=
          ih _
        have h2 : i2.dropWhile nomMultispace <:+ i2 := List.dropWhile_suffix _
        have h3 : i2 <:+ ';' :: i2 := List.suffix_cons _ _
        have h4 : (';' :: i2 : List Char) <:+ input := heq ▸ List.dropWhile_suffix _
        exact ((h1.trans h2).trans h3).trans h4
      · exact List.suffix_refl _

theorem dropStrays_suffix (input : List Char) : dropStrays input <:+ input :=
  dropStraysGo_suffix _ _

theorem length_dropStrays_le (input : List Char) :
    (dropStrays input).length ≤ input.length :=
  (dropStrays_suffix input).length_le

/-- When the first non-whitespace character is not `;`, the stray-separator
eater leaves the input untouched. -/
theorem dropStrays_no_semi {input : List Char} {c : Char} {t : List Char}
    (hdw : input.dropWhile nomMultispace = c :: t) (hc : c ≠ ';') :
    dropStrays input = input := by
  unfold dropStrays
  conv_lhs => rw [show input.length + 1 = Nat.succ input.length from rfl]
  simp only [dropStraysGo, hdw]
  split
  · rename_i i2 heq
    exact absurd (by injection heq) hc
  · rfl

theorem dropStrays_nil : dropStrays [] = [] := rfl

/-! ### parse_identifier characterization -/

theorem identFirst_imp_identRest : ∀ c, identFirst c = true → identRest c = true := by
  intro c h
  simp only [identFirst, Bool.or_eq_true] at h
  simp only [identRest, Bool.or_eq_true]
  rcases h with ((h | h) | h) | h
  · exact Or.inl (Or.inl (Or.inl (by simp [Char.isAlphanum, h])))
  · exact Or.inl (Or.inr h)
  · exact Or.inl (Or.inl (Or.inr h))
  · exact Or.inr h

theorem parse_identifier_cons {c : Char} {t : List Char} (hc : identFirst c = true) :
    CSSDeclaration.parse_identifier (c :: t) =
      some ((c :: t).takeWhile identRest, (c :: t).dropWhile identRest) := by
  have hchain := takeWhile_chain identFirst_imp_identRest t
  simp only [CSSDeclaration.parse_identifier, List.takeWhile_cons_of_pos hc,
    List.dropWhile_cons_of_pos hc]
  rw [List.takeWhile_cons_of_pos (identFirst_imp_identRest c hc),
    List.dropWhile_cons_of_pos (identFirst_imp_identRest c hc)]
  rw [List.cons_append, hchain.1, hchain.2]

theorem parse_identifier_nil : CSSDeclaration.parse_identifier [] = none := rfl

theorem parse_identifier_neg {c : Char} {t : List Char} (hc : identFirst c = false) :
    CSSDeclaration.parse_identifier (c :: t) = none := by
  have h0 : (c :: t).takeWhile identFirst = [] :=
    List.takeWhile_cons_of_neg (by simp [hc])
  simp only [CSSDeclaration.parse_identifier, h0]

/-- Parsing a serialized identifier followed by a non-identifier character. -/
theorem parse_identifier_exact {n : List Char} (hn : n ≠ [])
    (hfirst : identFirst n.headI = true) (hall : ∀ c ∈ n, identRest c = true)
    (y : Char) (ys : List Char) (hy : identRest y = false) :
    CSSDeclaration.parse_identifier (n ++ y :: ys) = some (n, y :: ys) := by
  cases n with
  | nil => exact absurd rfl hn
  | cons c t =>
      rw [List.cons_append]
      rw [parse_identifier_cons (by simpa using hfirst)]
      rw [← List.cons_append]
      rw [takeWhile_stop ys hall hy, dropWhile_stop ys hall hy]

theorem parse_identifier_some_inv {input n r : List Char}
    (h : CSSDeclaration.parse_identifier input = some (n, r)) :
    n = input.takeWhile identRest ∧ r = input.dropWhile identRest ∧
      n ≠ [] ∧ identFirst n.headI = true ∧ (∀ c ∈ n, identRest c = true) := by
  cases input with
  | nil => cases h
  | cons c t =>
      cases hc : identFirst c with
      | false => rw [parse_identifier_neg hc] at h; cases h
      | true =>
          rw [parse_identifier_cons hc] at h
          simp only [Option.some.injEq, Prod.mk.injEq] at h
          obtain ⟨h1, h2⟩ := h
          have hir : identRest c = true := identFirst_imp_identRest c hc
          subst h1 h2
          refine ⟨rfl, rfl, ?_, ?_, ?_⟩
          · rw [List.takeWhile_cons_of_pos hir]; simp
          · rw [List.takeWhile_cons_of_pos hir]; simpa using hc
          · intro a ha; exact List.mem_takeWhile_imp ha

/-! ### parse_important / parse_value characterization -/

theorem isPrefixOf_append_self : ∀ lit rest : List Char,
    lit.isPrefixOf (lit ++ rest) = true
  | [], _ => by simp [List.isPrefixOf]
  | a :: as, rest => by
      simp [List.isPrefixOf, isPrefixOf_append_self as rest]

theorem tagP_append (lit rest : List Char) : tagP lit (lit ++ rest) = some rest := by
  unfold tagP
  rw [if_pos (isPrefixOf_append_self lit rest), List.drop_left]

theorem tagP_some_suffix {lit input r : List Char} (h : tagP lit input = some r) :
    r <:+ input := by
  unfold tagP at h
  split at h
  · cases h; exact List.drop_suffix _ _
  · cases h

theorem parse_important_exact {w rest : List Char}
    (hw : ∀ c ∈ w, nomMultispace c = true) :
    CSSDeclaration.parse_important ('!' :: (w ++ ("important".data ++ rest))) = some rest := by
  show tagP "important".data
    ((w ++ ("important".data ++ rest)).dropWhile nomMultispace) = some rest
  rw [List.dropWhile_append_of_pos hw]
  show tagP "important".data ("important".data ++ rest) = some rest
  exact tagP_append _ _

theorem parse_important_nil : CSSDeclaration.parse_important [] = none := rfl

theorem parse_important_semi (t : List Char) :
    CSSDeclaration.parse_important (';' :: t) = none := rfl

theorem parse_important_suffix {input r : List Char}
    (h : CSSDeclaration.parse_important input = some r) : r <:+ input := by
  unfold CSSDeclaration.parse_important at h
  split at h
  · rename_i i2 heq
    have h1 : r <:+ i2.dropWhile nomMultispace := tagP_some_suffix h
    have h2 : i2.dropWhile nomMultispace <:+ i2 := List.dropWhile_suffix _
    have h3 : i2 <:+ '!' :: i2 := List.suffix_cons _ _
    have h4 : ('!' :: i2 : List Char) <:+ input := heq ▸ List.dropWhile_suffix _
    exact ((h1.trans h2).trans h3).trans h4
  · cases h

theorem parse_value_some_inv {input : List Char} {v : List Char} {imp : Bool}
    {r : List Char} (h : CSSDeclaration.parse_value input = some ((v, imp), r)) :
    v = trimList (input.takeWhile valOk) ∧ input.takeWhile valOk ≠ [] ∧ r <:+ input := by
  unfold CSSDeclaration.parse_value at h
  split at h
  · cases h
  · rename_i c cs heq
    have hsuffix : input.dropWhile valOk <:+ input := List.dropWhile_suffix _
    cases him : CSSDeclaration.parse_important (input.dropWhile valOk) with
    | some rest2 =>
        rw [him] at h
        simp only [Option.some.injEq, Prod.mk.injEq] at h
        obtain ⟨⟨h1, _⟩, h3⟩ := h
        subst h1 h3
        exact ⟨rfl, by simp [heq], (parse_important_suffix him).trans hsuffix⟩
    | none =>
        rw [him] at h
        simp only [Option.some.injEq, Prod.mk.injEq] at h
        obtain ⟨⟨h1, _⟩, h3⟩ := h
        subst h1 h3
        exact ⟨rfl, by simp [heq], hsuffix⟩

/-- Serialized-value parsing, no `!important`: the raw value runs up to a `;`. -/
theorem parse_value_plain {v : List Char} (rest : List Char) (hv : v ≠ [])
    (hall : ∀ c ∈ v, valOk c = true) :
    CSSDeclaration.parse_value (v ++ ';' :: rest) =
      some ((trimList v, false), ';' :: rest) := by
  have htw : (v ++ ';' :: rest).takeWhile valOk = v := takeWhile_stop rest hall (by decide)
  have hdw : (v ++ ';' :: rest).dropWhile valOk = ';' :: rest := dropWhile_stop rest hall (by decide)
  cases v with
  | nil => exact absurd rfl hv
  | cons c t =>
      simp only [CSSDeclaration.parse_value, htw, hdw, parse_important_semi]

/-- Serialized-value parsing with a `!important` suffix: the raw value stops at
the `!`, whitespace may separate `!` from the keyword. -/
theorem parse_value_bang {s w rest : List Char} (hs : s ≠ [])
    (hall : ∀ c ∈ s, valOk c = true) (hw : ∀ c ∈ w, nomMultispace c = true) :
    CSSDeclaration.parse_value (s ++ '!' :: (w ++ ("important".data ++ rest))) =
      some ((trimList s, true), rest) := by
  have htw : (s ++ '!' :: (w ++ ("important".data ++ rest))).takeWhile valOk = s :=
    takeWhile_stop _ hall (by decide)
  have hdw : (s ++ '!' :: (w ++ ("important".data ++ rest))).dropWhile valOk =
      '!' :: (w ++ ("important".data ++ rest)) := dropWhile_stop _ hall (by decide)
  cases s with
  | nil => exact absurd rfl hs
  | cons c t =>
      simp only [CSSDeclaration.parse_value, htw, hdw, parse_important_exact hw]

/-! ### CSSDeclaration.parse: serialization exactness and inversion -/

theorem identFirst_not_ms {c : Char} (h : identFirst c = true) :
    nomMultispace c = false := by
  cases hm : nomMultispace c with
  | false => rfl
  | true =>
      simp only [nomMultispace, Bool.or_eq_true, decide_eq_true_eq] at hm
      rcases hm with ((rfl | rfl) | rfl) | rfl <;> exact absurd h (by decide)

theorem identFirst_ne_semi {c : Char} (h : identFirst c = true) : c ≠ ';' := by
  intro hc; subst hc; exact absurd h (by decide)

theorem head_false_of_dropWhile_eq_self {p : Char → Bool} {l : List Char} {c : Char}
    {t : List Char} (h : l.dropWhile p = l) (hl : l = c :: t) : p c = false := by
  subst hl
  cases hp : p c with
  | false => rfl
  | true =>
      rw [List.dropWhile_cons_of_pos hp] at h
      have h1 := length_dropWhile_le p t
      have h2 := congrArg List.length h
      simp at h2
      omega

theorem colon_space_data : ": ".data = [':', ' '] := rfl

theorem display_false (n v : List Char) :
    CSSDeclaration.display ⟨n, v, false⟩ = n ++ ": ".data ++ v ++ ";".data := rfl

theorem display_true (n v : List Char) :
    CSSDeclaration.display ⟨n, v, true⟩ = n ++ ": ".data ++ v ++ " !important;".data := rfl

/-- Parsing a serialized declaration: everything up to (not including) the
final `;` of `display` is consumed. -/
theorem parse_display_exact (d : CSSDeclaration) (t : List Char)
    (hn1 : d.name ≠ []) (hn2 : identFirst d.name.headI = true)
    (hn3 : ∀ c ∈ d.name, identRest c = true)
    (hv1 : d.value ≠ []) (hv2 : trimList d.value = d.value)
    (hv3 : ∀ c ∈ d.value, valOk c = true) :
    CSSDeclaration.parse (d.display ++ t) = some (d, ';' :: t) := by
  obtain ⟨n, v, imp⟩ := d
  simp only at hn1 hn2 hn3 hv1 hv2 hv3
  obtain ⟨cn, n', rfl⟩ : ∃ c t', n = c :: t' := by
    cases n with
    | nil => exact absurd rfl hn1
    | cons a b => exact ⟨a, b, rfl⟩
  obtain ⟨cv, v', rfl⟩ : ∃ c t', v = c :: t' := by
    cases v with
    | nil => exact absurd rfl hv1
    | cons a b => exact ⟨a, b, rfl⟩
  have hmsn : nomMultispace cn = false := identFirst_not_ms (by simpa using hn2)
  have hmsv : nomMultispace cv = false :=
    head_false_of_dropWhile_eq_self (dropWhile_ms_of_trimList_eq hv2) rfl
  have e2b : ∀ Z : List Char, (':' :: (' ' :: Z)).dropWhile nomMultispace
      = ':' :: (' ' :: Z) := fun Z => List.dropWhile_cons_of_neg (by decide)
  have e3 : ∀ X : List Char, (' ' :: ((cv :: v') ++ X)).dropWhile nomMultispace
      = (cv :: v') ++ X := by
    intro X
    rw [List.dropWhile_cons_of_pos (by decide), List.cons_append]
    exact List.dropWhile_cons_of_neg (by simp [hmsv])
  cases imp with
  | false =>
      have hshape : (CSSDeclaration.display ⟨cn :: n', cv :: v', false⟩) ++ t
          = (cn :: n') ++ (':' :: ' ' :: ((cv :: v') ++ (';' :: t))) := by
        rw [display_false, colon_space_data]
        simp [List.append_assoc]
      rw [hshape]
      have e1 : ((cn :: n') ++ (':' :: ' ' :: ((cv :: v') ++
          (';' :: t)))).dropWhile nomMultispace
          = (cn :: n') ++ (':' :: ' ' :: ((cv :: v') ++ (';' :: t))) := by
        rw [List.cons_append]
        exact List.dropWhile_cons_of_neg (by simp [hmsn])
      have e2 := parse_identifier_exact hn1 (by simpa using hn2) hn3
        ':' (' ' :: ((cv :: v') ++ (';' :: t))) (by decide)
      have e4 : CSSDeclaration.parse_value ((cv :: v') ++ (';' :: t)) =
          some ((cv :: v', false), ';' :: t) := by
        rw [parse_value_plain t (by simp) hv3, hv2]
      simp only [CSSDeclaration.parse, CSSDeclaration.parse_declaration, e1, e2, e2b,
        e3, e4]
  | true =>
      have hshape : (CSSDeclaration.display ⟨cn :: n', cv :: v', true⟩) ++ t
          = (cn :: n') ++ (':' :: ' ' :: ((cv :: v') ++ (" !important;".data ++ t))) := by
        rw [display_true, colon_space_data]
        simp [List.append_assoc]
      rw [hshape]
      have e1 : ((cn :: n') ++ (':' :: ' ' :: ((cv :: v') ++
          (" !important;".data ++ t)))).dropWhile nomMultispace
          = (cn :: n') ++ (':' :: ' ' :: ((cv :: v') ++ (" !important;".data ++ t))) := by
        rw [List.cons_append]
        exact List.dropWhile_cons_of_neg (by simp [hmsn])
      have e2 := parse_identifier_exact hn1 (by simpa using hn2) hn3
        ':' (' ' :: ((cv :: v') ++ (" !important;".data ++ t))) (by decide)
      have e4 : CSSDeclaration.parse_value ((cv :: v') ++ (" !important;".data ++ t)) =
          some ((cv :: v', true), ';' :: t) := by
        have hsplit : (cv :: v') ++ (" !important;".data ++ t)
            = ((cv :: v') ++ [' ']) ++ '!' :: ([] ++ ("important".data ++ (';' :: t))) := by
          simp [List.append_assoc]
        rw [hsplit]
        rw [parse_value_bang (by simp) (by
          intro c hc
          rcases List.mem_append.mp hc with h | h
          · exact hv3 c h
          · simp at h; subst h; decide) (by intro c hc; cases hc)]
        rw [trimList_append_ws (by intro c hc; simp at hc; subst hc; decide), hv2]
      simp only [CSSDeclaration.parse, CSSDeclaration.parse_declaration, e1, e2, e2b,
        e3, e4]

theorem parse_some_inv {input : List Char} {d : CSSDeclaration} {r : List Char}
    (h : CSSDeclaration.parse input = some (d, r)) :
    declInv d ∧ r <:+ input ∧ r.length < input.length := by
  unfold CSSDeclaration.parse CSSDeclaration.parse_declaration at h
  cases hid : CSSDeclaration.parse_identifier (input.dropWhile nomMultispace) with
  | none => rw [hid] at h; cases h
  | some pr =>
      obtain ⟨name, i2⟩ := pr
      rw [hid] at h
      obtain ⟨hn1, hn2, hn3, hn4, hn5⟩ := parse_identifier_some_inv hid
      simp only at h
      cases hdw2 : i2.dropWhile nomMultispace with
      | nil => rw [hdw2] at h; cases h
      | cons c2 i4 =>
          rw [hdw2] at h
          by_cases hc2 : c2 = ':'
          · subst hc2
            simp only at h
            cases hval : CSSDeclaration.parse_value (i4.dropWhile nomMultispace) with
            | none => rw [hval] at h; cases h
            | some vp =>
                obtain ⟨⟨v, imp⟩, i6⟩ := vp
                rw [hval] at h
                simp only [Option.some.injEq, Prod.mk.injEq] at h
                obtain ⟨hd, hr⟩ := h
                obtain ⟨hval1, hval2, hval3⟩ := parse_value_some_inv hval
                subst hd hr
                constructor
                · refine ⟨hn3, hn4, hn5, ?_, ?_⟩
                  · simp only
                    rw [hval1, trimList_idem]
                  · simp only
                    intro c hc
                    rw [hval1] at hc
                    exact List.mem_takeWhile_imp (mem_trimList hc)
                · -- suffix and length bookkeeping
                  have s0 : input.dropWhile nomMultispace <:+ input :=
                    List.dropWhile_suffix _
                  have s1 : i2 <:+ input.dropWhile nomMultispace := by
                    rw [hn2]; exact List.dropWhile_suffix _
                  have s2 : i2.dropWhile nomMultispace <:+ i2 := List.dropWhile_suffix _
                  have s3 : i4 <:+ i2.dropWhile nomMultispace := by
                    rw [hdw2]; exact List.suffix_cons _ _
                  have s4 : i4.dropWhile nomMultispace <:+ i4 := List.dropWhile_suffix _
                  have s6 : i6 <:+ i4.dropWhile nomMultispace := hval3
                  have hsuf : i6 <:+ input :=
                    ((((s6.trans s4).trans s3).trans s2).trans s1).trans s0
                  refine ⟨hsuf, ?_⟩
                  -- identifier consumes at least one character
                  have hi1 : (input.dropWhile nomMultispace) ≠ [] := by
                    intro hnil
                    rw [hnil] at hid
                    rw [parse_identifier_nil] at hid
                    cases hid
                  obtain ⟨c1, t1, he1⟩ : ∃ c1 t1,
                      input.dropWhile nomMultispace = c1 :: t1 := by
                    cases hx : input.dropWhile nomMultispace with
                    | nil => exact absurd hx hi1
                    | cons a b => exact ⟨a, b, rfl⟩
                  have hic : identFirst c1 = true := by
                    by_cases hcc : identFirst c1 = true
                    · exact hcc
                    · rw [he1, parse_identifier_neg (by simpa using hcc)] at hid
                      cases hid
                  have hlen1 : i2.length < (input.dropWhile nomMultispace).length := by
                    rw [hn2, he1, List.dropWhile_cons_of_pos
                      (identFirst_imp_identRest c1 hic)]
                    have := length_dropWhile_le identRest t1
                    simp
                    omega
                  have hlen2 : i4.length < i2.length := by
                    have h1 := congrArg List.length hdw2
                    have h2 := length_dropWhile_le nomMultispace i2
                    simp at h1
                    omega
                  have hlen3 : i6.length ≤ (i4.dropWhile nomMultispace).length :=
                    hval3.length_le
                  have hlen4 := length_dropWhile_le nomMultispace i4
                  have hlen0 := length_dropWhile_le nomMultispace input
                  omega
          · have : (match (c2 :: i4 : List Char) with
                | ':' :: i4 =>
                    match CSSDeclaration.parse_value (i4.dropWhile nomMultispace) with
                    | none => none
                    | some (vp, i6) => some ((name, vp), i6)
                | _ => (none : Option ((List Char × (List Char × Bool)) × List Char)))
                = none := by
              split
              · rename_i heq
                exact absurd (by injection heq) hc2
              · rfl
            rw [this] at h
            cases h

/-! ### declItem lemmas -/

theorem declItem_some_inv {input : List Char} {d : CSSDeclaration} {r : List Char}
    (h : declItem input = some (d, r)) :
    declInv d ∧ r <:+ input ∧ r.length < input.length := by
  unfold declItem at h
  cases hp : CSSDeclaration.parse ((dropStrays input).dropWhile nomMultispace) with
  | none => rw [hp] at h; cases h
  | some pr =>
      obtain ⟨d', i3⟩ := pr
      rw [hp] at h
      simp only at h
      obtain ⟨hinv, hsuf, hlen⟩ := parse_some_inv hp
      have s1 : (dropStrays input).dropWhile nomMultispace <:+ dropStrays input :=
        List.dropWhile_suffix _
      have s2 : dropStrays input <:+ input := dropStrays_suffix input
      have hl1 := s1.length_le
      have hl2 := s2.length_le
      have hl3 := hsuf.length_le
      split at h
      · simp only [Option.some.injEq, Prod.mk.injEq] at h
        obtain ⟨rfl, rfl⟩ := h
        refine ⟨hinv, ?_, ?_⟩
        · exact (List.suffix_cons _ _).trans ((hsuf.trans s1).trans s2)
        · simp at hlen
          omega
      · simp only [Option.some.injEq, Prod.mk.injEq] at h
        obtain ⟨rfl, rfl⟩ := h
        exact ⟨hinv, (hsuf.trans s1).trans s2, by omega⟩

theorem declItem_display_exact (d : CSSDeclaration) (w t : List Char)
    (hw : ∀ c ∈ w, nomMultispace c = true)
    (hn1 : d.name ≠ []) (hn2 : identFirst d.name.headI = true)
    (hn3 : ∀ c ∈ d.name, identRest c = true)
    (hv1 : d.value ≠ []) (hv2 : trimList d.value = d.value)
    (hv3 : ∀ c ∈ d.value, valOk c = true) :
    declItem (w ++ (d.display ++ t)) = some (d, t) := by
  obtain ⟨cn, n', hn⟩ : ∃ c t', d.name = c :: t' := by
    cases hx : d.name with
    | nil => exact absurd hx hn1
    | cons a b => exact ⟨a, b, rfl⟩
  have hcn : identFirst cn = true := by rw [hn] at hn2; simpa using hn2
  have hdisp : d.display ++ t = cn :: (n' ++ (": ".data ++ d.value ++
      (if d.important then " !important;".data else ";".data)) ++ t) := by
    unfold CSSDeclaration.display
    rw [hn]
    simp [List.append_assoc]
  have hdw : (w ++ (d.display ++ t)).dropWhile nomMultispace = d.display ++ t := by
    rw [List.dropWhile_append_of_pos hw, hdisp]
    exact List.dropWhile_cons_of_neg (by simp [identFirst_not_ms hcn])
  have hds : dropStrays (w ++ (d.display ++ t)) = w ++ (d.display ++ t) := by
    refine dropStrays_no_semi (c := cn)
      (t := n' ++ (": ".data ++ d.value ++
        (if d.important then " !important;".data else ";".data)) ++ t) ?_ ?_
    · rw [hdw, hdisp]
    · exact identFirst_ne_semi hcn
  unfold declItem
  rw [hds, hdw, parse_display_exact d t hn1 hn2 hn3 hv1 hv2 hv3]
  rfl

theorem declItem_none_of_brace {w : List Char} (r : List Char)
    (hw : ∀ c ∈ w, nomMultispace c = true) :
    declItem (w ++ '\x7d' :: r) = none := by
  have hdw : (w ++ '\x7d' :: r).dropWhile nomMultispace = '\x7d' :: r := by
    rw [List.dropWhile_append_of_pos hw]
    exact List.dropWhile_cons_of_neg (by decide)
  have hds : dropStrays (w ++ '\x7d' :: r) = w ++ '\x7d' :: r :=
    dropStrays_no_semi hdw (by decide)
  unfold declItem
  rw [hds, hdw]
  have hparse : CSSDeclaration.parse ('\x7d' :: r) = none := by
    unfold CSSDeclaration.parse CSSDeclaration.parse_declaration
    rw [List.dropWhile_cons_of_neg (by decide), parse_identifier_neg (by decide)]
  rw [hparse]

theorem declItem_nil : declItem [] = none := rfl

/-! ### Declaration-list serialization exactness -/

theorem display_length_pos (d : CSSDeclaration) : 0 < d.display.length := by
  unfold CSSDeclaration.display
  cases d.important <;> simp

theorem joinSpace_cons (x : List Char) (xs : List (List Char)) :
    CSSDeclarationList.joinSpace (x :: xs) =
      x ++ (if xs.isEmpty then [] else ' ' :: CSSDeclarationList.joinSpace xs) := by
  cases xs <;> simp [CSSDeclarationList.joinSpace]

theorem many0_stuck {α : Type} {p : List Char → Option (α × List Char)} {input : List Char}
    {a : α} {rest : List Char} (hp : p input = some (a, rest))
    (h : ¬ rest.length < input.length) : many0 p input = none := by
  unfold many0
  conv_lhs => rw [show input.length + 1 = Nat.succ input.length from rfl]
  simp only [many0Go, hp, if_neg h]

theorem many0_eq_nil_inv {α : Type} {p : List Char → Option (α × List Char)}
    {input r : List Char} (h : many0 p input = some (([] : List α), r)) : r = input := by
  cases hp : p input with
  | none => rw [many0_none hp] at h; simpa using h.symm
  | some ar =>
      obtain ⟨a, rest⟩ := ar
      by_cases hlen : rest.length < input.length
      · rw [many0_cons hp hlen] at h
        cases hm : many0 p rest with
        | none => rw [hm] at h; cases h
        | some x => rw [hm] at h; simp at h
      · rw [many0_stuck hp hlen] at h; cases h

theorem list_run (ds : List CSSDeclaration) (hds : ds ≠ [])
    (hgood : ∀ d ∈ ds, declGood d) (rest : List Char) (hrest : declItem rest = none) :
    ∀ w : List Char, (∀ c ∈ w, nomMultispace c = true) →
      many0 declItem
        (w ++ (CSSDeclarationList.joinSpace (ds.map CSSDeclaration.display) ++ rest))
        = some (ds, rest) := by
  induction ds with
  | nil => exact absurd rfl hds
  | cons d ds' ih =>
      intro w hw
      obtain ⟨⟨hn1, hn2, hn3, hv2, hv3⟩, hv1⟩ := hgood d (by simp)
      cases ds' with
      | nil =>
          simp only [List.map, CSSDeclarationList.joinSpace]
          have h1 := declItem_display_exact d w rest hw hn1 hn2 hn3 hv1 hv2 hv3
          have hlen : rest.length < (w ++ (d.display ++ rest)).length := by
            have := display_length_pos d
            simp
            omega
          rw [many0_cons h1 hlen, many0_none hrest]
          rfl
      | cons d2 ds'' =>
          have hJ : CSSDeclarationList.joinSpace ((d :: d2 :: ds'').map CSSDeclaration.display)
              ++ rest = d.display ++ (' ' ::
                (CSSDeclarationList.joinSpace ((d2 :: ds'').map CSSDeclaration.display)
                  ++ rest)) := by
            simp [CSSDeclarationList.joinSpace, List.append_assoc]
          rw [hJ]
          have h1 := declItem_display_exact d w
            (' ' :: (CSSDeclarationList.joinSpace ((d2 :: ds'').map CSSDeclaration.display)
              ++ rest)) hw hn1 hn2 hn3 hv1 hv2 hv3
          have hlen : (' ' :: (CSSDeclarationList.joinSpace
              ((d2 :: ds'').map CSSDeclaration.display) ++ rest)).length
              < (w ++ (d.display ++ (' ' :: (CSSDeclarationList.joinSpace
                ((d2 :: ds'').map CSSDeclaration.display) ++ rest)))).length := by
            have := display_length_pos d
            simp
            omega
          rw [many0_cons h1 hlen]
          have h2 := ih (by simp) (fun d hd => hgood d (by simp [hd])) [' ']
            (by intro c hc; simp at hc; subst hc; rfl)
          rw [show (' ' :: (CSSDeclarationList.joinSpace
              ((d2 :: ds'').map CSSDeclaration.display) ++ rest))
              = [' '] ++ (CSSDeclarationList.joinSpace
                ((d2 :: ds'').map CSSDeclaration.display) ++ rest) from rfl, h2]
          rfl

/-! ### Rule serialization exactness -/

theorem CSSDeclarationList_parse_eq (input : List Char) :
    CSSDeclarationList.parse input =
      match many0 declItem input with
      | none => none
      | some (ds, rest) => some (⟨ds⟩, rest) := rfl

theorem block_exact (ds : List CSSDeclaration) (hgood : ∀ d ∈ ds, declGood d)
    (rest : List Char) :
    CSSRule.parse_declarations_block
      (' ' :: (CSSDeclarationList.joinSpace (ds.map CSSDeclaration.display)
        ++ (' ' :: '\x7d' :: rest)))
      = some (⟨ds⟩, rest) := by
  cases ds with
  | nil =>
      show CSSRule.parse_declarations_block (' ' :: (' ' :: '\x7d' :: rest)) = _
      have hdw : (' ' :: (' ' :: '\x7d' :: rest)).dropWhile nomMultispace
          = '\x7d' :: rest := by
        rw [List.dropWhile_cons_of_pos (by decide), List.dropWhile_cons_of_pos (by decide)]
        exact List.dropWhile_cons_of_neg (by decide)
      have hitem : declItem ('\x7d' :: rest) = none := by
        have := declItem_none_of_brace (w := []) rest (by intro c hc; cases hc)
        simpa using this
      unfold CSSRule.parse_declarations_block
      rw [hdw, CSSDeclarationList_parse_eq, many0_none hitem]
      simp only
      rw [List.dropWhile_cons_of_neg (by decide)]
      exact rfl
  | cons d ds' =>
      have hd := hgood d (by simp)
      obtain ⟨⟨hn1, hn2, hn3, hv2, hv3⟩, hv1⟩ := hd
      obtain ⟨cn, n', hn⟩ : ∃ c t', d.name = c :: t' := by
        cases hx : d.name with
        | nil => exact absurd hx hn1
        | cons a b => exact ⟨a, b, rfl⟩
      have hcn : identFirst cn = true := by rw [hn] at hn2; simpa using hn2
      have hshape : CSSDeclarationList.joinSpace ((d :: ds').map CSSDeclaration.display)
          ++ (' ' :: '\x7d' :: rest)
          = cn :: (n' ++ (": ".data ++ d.value ++
              (if d.important then " !important;".data else ";".data)) ++
              ((if (ds'.map CSSDeclaration.display).isEmpty then []
                else ' ' :: CSSDeclarationList.joinSpace (ds'.map CSSDeclaration.display))
                ++ (' ' :: '\x7d' :: rest))) := by
        rw [List.map_cons, joinSpace_cons]
        unfold CSSDeclaration.display
        rw [hn]
        simp [List.append_assoc]
      have hdw : List.dropWhile nomMultispace
          (' ' :: (CSSDeclarationList.joinSpace
            ((d :: ds').map CSSDeclaration.display) ++ (' ' :: '\x7d' :: rest)))
          = CSSDeclarationList.joinSpace ((d :: ds').map CSSDeclaration.display)
            ++ (' ' :: '\x7d' :: rest) := by
        rw [List.dropWhile_cons_of_pos (show nomMultispace ' ' = true by decide), hshape]
        exact List.dropWhile_cons_of_neg (by simp [identFirst_not_ms hcn])
      have hitem : declItem (' ' :: '\x7d' :: rest) = none := by
        have := declItem_none_of_brace (w := [' ']) rest
          (by intro c hc; simp at hc; subst hc; rfl)
        simpa using this
      have hrun := list_run (d :: ds') (by simp) hgood (' ' :: '\x7d' :: rest) hitem []
        (by intro c hc; cases hc)
      rw [List.nil_append] at hrun
      unfold CSSRule.parse_declarations_block
      rw [hdw, CSSDeclarationList_parse_eq, hrun]
      simp only
      rw [List.dropWhile_cons_of_pos (by decide), List.dropWhile_cons_of_neg (by decide)]
      exact rfl

theorem space_brace_space : " \x7b ".data = [' ', '\x7b', ' '] := rfl

theorem space_closing_brace : " \x7d".data = [' ', '\x7d'] := rfl

theorem rule_display_exact (r : CSSRule) (hr : ruleGood r) (w rest : List Char)
    (hw : ∀ c ∈ w, nomMultispace c = true) :
    CSSRule.parse (w ++ (r.display ++ rest)) = some (r, rest) := by
  obtain ⟨hsel1, hsel2, hds⟩ := hr
  obtain ⟨sel, dl⟩ := r
  obtain ⟨ds⟩ := dl
  have hshape : w ++ (CSSRule.display ⟨sel, ⟨ds⟩⟩ ++ rest)
      = (w ++ (sel ++ [' '])) ++ '\x7b' ::
          (' ' :: (CSSDeclarationList.joinSpace (ds.map CSSDeclaration.display)
            ++ (' ' :: '\x7d' :: rest))) := by
    unfold CSSRule.display CSSDeclarationList.display
    rw [space_brace_space, space_closing_brace]
    simp [List.append_assoc]
  have hall : ∀ c ∈ w ++ (sel ++ [' ']), (fun c => !(c = '\x7b')) c = true := by
    intro c hc
    have hne : c ≠ '\x7b' := by
      rcases List.mem_append.mp hc with h | h
      · have := hw c h
        simp only [nomMultispace, Bool.or_eq_true, decide_eq_true_eq] at this
        rcases this with ((rfl | rfl) | rfl) | rfl <;> decide
      · rcases List.mem_append.mp h with h | h
        · intro hcc; subst hcc; exact hsel2 h
        · simp at h; subst h; decide
    simp [hne]
  have htw : ((w ++ (sel ++ [' '])) ++ '\x7b' ::
      (' ' :: (CSSDeclarationList.joinSpace (ds.map CSSDeclaration.display)
        ++ (' ' :: '\x7d' :: rest)))).takeWhile (fun c => !(c = '\x7b'))
      = w ++ (sel ++ [' ']) := takeWhile_stop _ hall (by decide)
  have hdw : ((w ++ (sel ++ [' '])) ++ '\x7b' ::
      (' ' :: (CSSDeclarationList.joinSpace (ds.map CSSDeclaration.display)
        ++ (' ' :: '\x7d' :: rest)))).dropWhile (fun c => !(c = '\x7b'))
      = '\x7b' :: (' ' :: (CSSDeclarationList.joinSpace (ds.map CSSDeclaration.display)
        ++ (' ' :: '\x7d' :: rest))) := dropWhile_stop _ hall (by decide)
  have htrim : trimList (w ++ (sel ++ [' '])) = sel := by
    rw [trimList_ws_append (by intro c hc; exact ms_imp_ws (hw c hc)),
      trimList_append_ws (by intro c hc; simp at hc; subst hc; decide), hsel1]
  have hblock := block_exact ds hds rest
  rw [hshape]
  simp only [CSSRule.parse, CSSRule.parse_selector, hdw, htw, htrim, hblock]

/-! ### Stylesheet serialization exactness -/

theorem rule_display_length_pos (r : CSSRule) : 0 < r.display.length := by
  unfold CSSRule.display
  simp [space_brace_space]

theorem CSSRule_parse_nil : CSSRule.parse [] = none := rfl

theorem ss_run (rules : List CSSRule) (hne : rules ≠ [])
    (hgood : ∀ r ∈ rules, ruleGood r) :
    ∀ w : List Char, (∀ c ∈ w, nomMultispace c = true) →
      many0 CSSRule.parse
        (w ++ CSSDeclarationList.joinSpace (rules.map CSSRule.display))
        = some (rules, []) := by
  induction rules with
  | nil => exact absurd rfl hne
  | cons r rules' ih =>
      intro w hw
      cases rules' with
      | nil =>
          simp only [List.map, CSSDeclarationList.joinSpace]
          have h1 := rule_display_exact r (hgood r (by simp)) w [] hw
          rw [List.append_nil] at h1
          have hlen : ([] : List Char).length < (w ++ r.display).length := by
            have := rule_display_length_pos r
            simp
            omega
          rw [show w ++ r.display = w ++ (r.display ++ []) by simp] at hlen ⊢
          rw [List.append_nil] at hlen ⊢
          rw [many0_cons h1 hlen, many0_none CSSRule_parse_nil]
          rfl
      | cons r2 rules'' =>
          have hJ : CSSDeclarationList.joinSpace ((r :: r2 :: rules'').map CSSRule.display)
              = r.display ++ (' ' ::
                CSSDeclarationList.joinSpace ((r2 :: rules'').map CSSRule.display)) := by
            simp [CSSDeclarationList.joinSpace]
          rw [hJ]
          have h1 := rule_display_exact r (hgood r (by simp)) w
            (' ' :: CSSDeclarationList.joinSpace ((r2 :: rules'').map CSSRule.display)) hw
          have hlen : (' ' :: CSSDeclarationList.joinSpace
              ((r2 :: rules'').map CSSRule.display)).length
              < (w ++ (r.display ++ (' ' :: CSSDeclarationList.joinSpace
                ((r2 :: rules'').map CSSRule.display)))).length := by
            have := rule_display_length_pos r
            simp
            omega
          rw [many0_cons h1 hlen]
          have h2 := ih (by simp) (fun r hr => hgood r (by simp [hr])) [' ']
            (by intro c hc; simp at hc; subst hc; rfl)
          rw [show (' ' :: CSSDeclarationList.joinSpace
              ((r2 :: rules'').map CSSRule.display))
              = [' '] ++ CSSDeclarationList.joinSpace ((r2 :: rules'').map CSSRule.display)
              from rfl, h2]
          rfl

/-! ### Rule and stylesheet parse inversion -/

theorem parse_selector_some_inv {input s r : List Char}
    (h : CSSRule.parse_selector input = some (s, r)) :
    s = trimList (input.takeWhile (fun c => !(c = '\x7b'))) ∧
      r <:+ input ∧ r.length < input.length ∧ trimList s = s ∧ '\x7b' ∉ s := by
  unfold CSSRule.parse_selector at h
  split at h
  · rename_i tl heq
    simp only [Option.some.injEq, Prod.mk.injEq] at h
    obtain ⟨rfl, rfl⟩ := h
    have hsufdw : input.dropWhile (fun c => !(c = '\x7b')) <:+ input :=
      List.dropWhile_suffix _
    have hsuf : tl <:+ input := (List.suffix_cons _ _).trans (heq ▸ hsufdw)
    have hlen : tl.length < input.length := by
      have h1 := congrArg List.length heq
      have h2 := hsufdw.length_le
      simp at h1
      omega
    refine ⟨rfl, hsuf, hlen, trimList_idem _, ?_⟩
    intro hmem
    have := List.mem_takeWhile_imp (mem_trimList hmem)
    simp at this
  · cases h

theorem block_some_inv {input : List Char} {dl : CSSDeclarationList} {rest : List Char}
    (h : CSSRule.parse_declarations_block input = some (dl, rest)) :
    (∀ d ∈ dl.declarations, declInv d) ∧ rest <:+ input ∧
      rest.length < input.length ∧ '\x7d' ∈ input := by
  unfold CSSRule.parse_declarations_block at h
  rw [CSSDeclarationList_parse_eq] at h
  cases hm : many0 declItem (input.dropWhile nomMultispace) with
  | none => rw [hm] at h; cases h
  | some pr =>
      obtain ⟨ds, i2⟩ := pr
      rw [hm] at h
      simp only at h
      have hmem : ∀ d ∈ ds, declInv d :=
        many0_mem (fun inp a r hh => (declItem_some_inv hh).1) hm
      have hsuf2 : i2 <:+ input.dropWhile nomMultispace :=
        many0_suffix (fun inp a r hh => (declItem_some_inv hh).2.1) hm
      have hsuf0 : input.dropWhile nomMultispace <:+ input := List.dropWhile_suffix _
      split at h
      · rename_i i3 heq
        simp only [Option.some.injEq, Prod.mk.injEq] at h
        obtain ⟨rfl, rfl⟩ := h
        have hsufdw : i2.dropWhile nomMultispace <:+ i2 := List.dropWhile_suffix _
        have hbr : (i2.dropWhile nomMultispace : List Char) <:+ input :=
          (hsufdw.trans hsuf2).trans hsuf0
        constructor
        · simpa using hmem
        refine ⟨?_, ?_, ?_⟩
        · exact ((List.suffix_cons _ _).trans (heq ▸ hbr))
        · have h1 := congrArg List.length heq
          have h2 := hbr.length_le
          simp at h1
          omega
        · have : '\x7d' ∈ i2.dropWhile nomMultispace := by rw [heq]; simp
          exact hbr.subset this
      · cases h

theorem rule_parse_some_inv {input : List Char} {r : CSSRule} {rest : List Char}
    (h : CSSRule.parse input = some (r, rest)) :
    ruleInvP r ∧ rest <:+ input ∧ rest.length < input.length ∧ '\x7d' ∈ input := by
  unfold CSSRule.parse at h
  cases hs : CSSRule.parse_selector input with
  | none => rw [hs] at h; cases h
  | some pr =>
      obtain ⟨sel, i1⟩ := pr
      rw [hs] at h
      simp only at h
      obtain ⟨_, hsuf1, hlen1, htrim, hbrace⟩ := parse_selector_some_inv hs
      cases hb : CSSRule.parse_declarations_block i1 with
      | none => rw [hb] at h; cases h
      | some pr2 =>
          obtain ⟨dl, i2⟩ := pr2
          rw [hb] at h
          simp only [Option.some.injEq, Prod.mk.injEq] at h
          obtain ⟨rfl, rfl⟩ := h
          obtain ⟨hinv, hsuf2, hlen2, _⟩ := block_some_inv hb
          refine ⟨⟨htrim, hbrace, hinv⟩, hsuf2.trans hsuf1, by omega, ?_⟩
          obtain ⟨hd⟩ := block_some_inv hb
          have hbr := (block_some_inv hb).2.2.2
          exact hsuf1.subset hbr

theorem ss_roundtrip {x : List Char} {S : Stylesheet}
    (h : Stylesheet.from_string x = some S)
    (hv : ∀ r ∈ S.rules, ∀ d ∈ r.declarations.declarations, d.value ≠ []) :
    Stylesheet.from_string S.display = some S := by
  unfold Stylesheet.from_string at h
  cases hp : Stylesheet.parse x with
  | none => rw [hp] at h; cases h
  | some pr =>
      obtain ⟨rules, rem⟩ := pr
      rw [hp] at h
      simp only [Option.some.injEq] at h
      subst h
      have hinv : ∀ r ∈ rules, ruleInvP r :=
        many0_mem (fun inp a r hh => (rule_parse_some_inv hh).1) hp
      have hgood : ∀ r ∈ rules, ruleGood r := by
        intro r hr
        obtain ⟨h1, h2, h3⟩ := hinv r hr
        exact ⟨h1, h2, fun d hd => ⟨h3 d hd, hv r hr d hd⟩⟩
      cases rules with
      | nil =>
          show Stylesheet.from_string (Stylesheet.display ⟨[]⟩) = some ⟨[]⟩
          have hd : Stylesheet.display ⟨[]⟩ = [] := rfl
          rw [hd]
          unfold Stylesheet.from_string Stylesheet.parse
          rw [many0_none CSSRule_parse_nil]
      | cons r rules' =>
          have hrun := ss_run (r :: rules') (by simp) hgood []
            (by intro c hc; cases hc)
          rw [List.nil_append] at hrun
          unfold Stylesheet.from_string Stylesheet.parse
          have hdisp : Stylesheet.display ⟨r :: rules'⟩
              = CSSDeclarationList.joinSpace ((r :: rules').map CSSRule.display) := rfl
          rw [hdisp, hrun]

/-! ### Remaining small helpers for the claim theorems -/

theorem parse_head_ident {input : List Char} {d : CSSDeclaration} {r : List Char}
    (h : CSSDeclaration.parse input = some (d, r)) :
    ∃ c t, input.dropWhile nomMultispace = c :: t ∧ identFirst c = true := by
  unfold CSSDeclaration.parse CSSDeclaration.parse_declaration at h
  cases hdw : input.dropWhile nomMultispace with
  | nil => rw [hdw, parse_identifier_nil] at h; cases h
  | cons c t =>
      cases hc : identFirst c with
      | false => rw [hdw, parse_identifier_neg hc] at h; cases h
      | true => exact ⟨c, t, rfl, hc⟩

theorem parse_dropWhile_ms (input : List Char) :
    CSSDeclaration.parse (input.dropWhile nomMultispace) = CSSDeclaration.parse input := by
  unfold CSSDeclaration.parse CSSDeclaration.parse_declaration
  rw [dropWhile_dropWhile]

theorem parse_value_isSome_of_head {e : Char} (i5t : List Char) (he : valOk e = true) :
    (CSSDeclaration.parse_value (e :: i5t)).isSome = true := by
  unfold CSSDeclaration.parse_value
  rw [List.takeWhile_cons_of_pos he]
  cases him : CSSDeclaration.parse_important ((e :: i5t).dropWhile valOk) <;>
    simp [him]

/-! ### Claim theorems -/

/-- C1, counterexample: the round-trip claim is false as stated. The value
`"b "` is valid in the claim's sense (non-empty, none of `;{}!`), but
serializing `a: b ;` and re-parsing trims the value to `"b"`, so the
round-trip does not return the original declaration. -/
theorem c1_counterexample :
    ("b ".data ≠ [] ∧ (∀ c ∈ "b ".data, valOk c = true)) ∧
      CSSDeclaration.from_string
        (CSSDeclaration.display ⟨"a".data, "b ".data, false⟩)
        = some ⟨"a".data, "b".data, false⟩ ∧
      (⟨"a".data, "b".data, false⟩ : CSSDeclaration) ≠ ⟨"a".data, "b ".data, false⟩ := by
  decide

/-- C1, amended: the declaration round-trip
`from_string (display d) = some d` holds for every important flag, every
valid identifier name, and every non-empty value that avoids `;{}!` *and*
carries no leading or trailing whitespace (Rust `str::trim` fixes the value,
so trim-invariance is necessary as well as sufficient). -/
theorem c1_round_trip (d : CSSDeclaration)
    (hn1 : d.name ≠ []) (hn2 : identFirst d.name.headI = true)
    (hn3 : ∀ c ∈ d.name, identRest c = true)
    (hv1 : d.value ≠ []) (hv2 : trimList d.value = d.value)
    (hv3 : ∀ c ∈ d.value, valOk c = true) :
    CSSDeclaration.from_string d.display = some d := by
  have h := parse_display_exact d [] hn1 hn2 hn3 hv1 hv2 hv3
  rw [List.append_nil] at h
  unfold CSSDeclaration.from_string
  rw [h]

/-- C1, witness for the amended round-trip at `color: red !important`. -/
theorem c1_round_trip_witness :
    CSSDeclaration.from_string
      (CSSDeclaration.display ⟨"color".data, "red".data, true⟩)
      = some ⟨"color".data, "red".data, true⟩ :=
  c1_round_trip ⟨"color".data, "red".data, true⟩ (by decide) (by decide) (by decide)
    (by decide) (by decide) (by decide)

/-- C2, counterexample: idempotence fails. `"a{a:\u00A0}"` parses successfully
(to one rule whose single declaration has an empty value, because U+00A0 is
trimmed by Rust `str::trim` but not consumed by nom `multispace0`), yet
re-parsing its serialization `"a { a: ; }"` yields an empty stylesheet. -/
theorem c2_counterexample :
    (Stylesheet.from_string "a\x7ba:\u00A0\x7d".data).isSome = true ∧
      (Stylesheet.from_string "a\x7ba:\u00A0\x7d".data).bind
          (fun s => Stylesheet.from_string s.display)
        ≠ Stylesheet.from_string "a\x7ba:\u00A0\x7d".data := by
  decide

/-- C2, amended: `parse (serialize (parse x)) = parse x` holds for every
input whose parse contains no empty-valued declaration (the only way the
canonical form can fail to re-parse). -/
theorem c2_idempotent (x : List Char) (S : Stylesheet)
    (h : Stylesheet.from_string x = some S)
    (hv : ∀ r ∈ S.rules, ∀ d ∈ r.declarations.declarations, d.value ≠ []) :
    (Stylesheet.from_string x).bind (fun s => Stylesheet.from_string s.display)
      = Stylesheet.from_string x := by
  rw [h]
  show Stylesheet.from_string S.display = some S
  exact ss_roundtrip h hv

/-- C2, witness for the amended idempotence at `a { b: c; }`. -/
theorem c2_idempotent_witness :
    (Stylesheet.from_string "a \x7b b: c; \x7d".data).bind
        (fun s => Stylesheet.from_string s.display)
      = Stylesheet.from_string "a \x7b b: c; \x7d".data :=
  c2_idempotent "a \x7b b: c; \x7d".data
    ⟨[⟨"a".data, ⟨[⟨"b".data, "c".data, false⟩]⟩⟩]⟩ (by decide)
    (by decide)

/-- C3: `parse_declarations` is total — it succeeds on every input; when it
matches zero declarations it returns the input unconsumed, and on empty
input it yields an empty list with empty remainder. -/
theorem c3_decl_list_total (input : List Char) :
    (CSSDeclarationList.parse_declarations input).isSome = true ∧
      ((CSSDeclarationList.parse_declarations input).map Prod.fst = some [] →
        CSSDeclarationList.parse_declarations input = some ([], input)) ∧
      CSSDeclarationList.parse_declarations [] = some ([], []) := by
  refine ⟨many0_isSome (fun inp a r hh => (declItem_some_inv hh).2.2) input, ?_, by decide⟩
  intro hmap
  cases hm : CSSDeclarationList.parse_declarations input with
  | none => rw [hm] at hmap; cases hmap
  | some pr =>
      obtain ⟨ds, rem⟩ := pr
      rw [hm] at hmap
      simp only [Option.map, Option.some.injEq] at hmap
      subst hmap
      rw [many0_eq_nil_inv hm]

/-- C3, witness: on `";"` (zero declarations) the parser succeeds with an
empty list and the input returned unconsumed. -/
theorem c3_decl_list_total_witness :
    CSSDeclarationList.parse_declarations ";".data = some ([], ";".data) :=
  (c3_decl_list_total ";".data).2.1 (by decide)

/-- C4: the rule parser fails when no `{` is present; on success the selector
is the trim of everything before the first `{` and a literal `}` was
required (hence present); and `Rule.parse "div{color: red}"` succeeds with
selector `"div"` and empty remainder. -/
theorem c4_rule_contract :
    (∀ input : List Char, '\x7b' ∉ input → CSSRule.parse input = none) ∧
      (∀ (input : List Char) (r : CSSRule) (rest : List Char),
        CSSRule.parse input = some (r, rest) →
          r.selector = trimList (input.takeWhile (fun c => !(c = '\x7b'))) ∧
            '\x7d' ∈ input) ∧
      CSSRule.parse "div\x7bcolor: red\x7d".data =
        some (⟨"div".data, ⟨[⟨"color".data, "red".data, false⟩]⟩⟩, []) := by
  refine ⟨?_, ?_, by decide⟩
  · intro input hmem
    have hall : ∀ c ∈ input, (fun c => !(c = '\x7b')) c = true := by
      intro c hc
      have : c ≠ '\x7b' := fun hcc => hmem (hcc ▸ hc)
      simp [this]
    unfold CSSRule.parse CSSRule.parse_selector
    rw [dropWhile_all hall]
  · intro input r rest h
    unfold CSSRule.parse at h
    cases hs : CSSRule.parse_selector input with
    | none => rw [hs] at h; cases h
    | some pr =>
        obtain ⟨sel, i1⟩ := pr
        rw [hs] at h
        simp only at h
        cases hb : CSSRule.parse_declarations_block i1 with
        | none => rw [hb] at h; cases h
        | some pr2 =>
            obtain ⟨dl, i2⟩ := pr2
            rw [hb] at h
            simp only [Option.some.injEq, Prod.mk.injEq] at h
            obtain ⟨rfl, rfl⟩ := h
            obtain ⟨hsel, hsuf1, _, _, _⟩ := parse_selector_some_inv hs
            refine ⟨hsel, ?_⟩
            exact hsuf1.subset (block_some_inv hb).2.2.2

/-- C4, witness: an input without `{` makes the rule parser fail. -/
theorem c4_rule_contract_witness : CSSRule.parse "abc".data = none :=
  c4_rule_contract.1 "abc".data (by decide)

/-- C5: `Stylesheet.parse ""` yields no rules, and the reference stylesheet
`body { margin: 0; padding: 0; }` yields exactly one rule with selector
`body` and the two expected non-important declarations. -/
theorem c5_stylesheet_examples :
    Stylesheet.from_string "".data = some ⟨[]⟩ ∧
      Stylesheet.from_string "body \x7b margin: 0; padding: 0; \x7d".data =
        some ⟨[⟨"body".data, ⟨[⟨"margin".data, "0".data, false⟩,
          ⟨"padding".data, "0".data, false⟩]⟩⟩]⟩ := by
  decide

/-- C6: an optional `!`, tolerating whitespace between `!` and the keyword
`important`, sets the flag and is excluded from the (trimmed) value — stated
for every raw value and every whitespace run — and in particular
`color: red !important` parses to `{color, red, important}` with empty
remainder. -/
theorem c6_important_handling :
    (∀ s w rest : List Char, s ≠ [] → (∀ c ∈ s, valOk c = true) →
      (∀ c ∈ w, nomMultispace c = true) →
        CSSDeclaration.parse_value (s ++ '!' :: (w ++ ("important".data ++ rest)))
          = some ((trimList s, true), rest)) ∧
      CSSDeclaration.parse "color: red !important".data =
        some (⟨"color".data, "red".data, true⟩, []) := by
  exact ⟨fun s w rest hs hall hw => parse_value_bang hs hall hw, by decide⟩

/-- C6, witness: the general clause at `red  !  important`. -/
theorem c6_important_handling_witness :
    CSSDeclaration.parse_value
      ("red ".data ++ '!' :: ("  ".data ++ ("important".data ++ [])))
      = some ((trimList "red ".data, true), []) :=
  c6_important_handling.1 "red ".data "  ".data [] (by decide) (by decide) (by decide)

/-- C7, counterexample: `"a:"` begins with a valid identifier followed by
`:`, yet `Declaration.parse` fails — the value step (`is_not(";{}!")` on
empty input) can fail too, so failure is not confined to the identifier and
`:` steps. -/
theorem c7_counterexample :
    CSSDeclaration.parse_identifier "a:".data = some ("a".data, ":".data) ∧
      CSSDeclaration.parse "a:".data = none := by
  decide

/-- C7, amended: `Declaration.parse` succeeds exactly when, after leading
whitespace, a valid identifier starts (first character alphabetic, `_`, `-`
or non-ASCII), the next non-whitespace character after the identifier is
`:`, and after further whitespace a value character follows that is none of
`;{}!` — i.e. the identifier step, the `:` step, *or the value step* can
fail, and nothing else. -/
theorem c7_parse_success_iff (input : List Char) :
    (CSSDeclaration.parse input).isSome = true ↔
      ∃ c i1t, input.dropWhile nomMultispace = c :: i1t ∧ identFirst c = true ∧
        ∃ i4, ((c :: i1t).dropWhile identRest).dropWhile nomMultispace = ':' :: i4 ∧
          ∃ e i5t, i4.dropWhile nomMultispace = e :: i5t ∧ valOk e = true := by
  constructor
  · intro h
    obtain ⟨⟨d, r⟩, hp⟩ := Option.isSome_iff_exists.mp h
    obtain ⟨c, i1t, hdw, hc⟩ := parse_head_ident hp
    refine ⟨c, i1t, hdw, hc, ?_⟩
    unfold CSSDeclaration.parse CSSDeclaration.parse_declaration at hp
    rw [hdw, parse_identifier_cons hc] at hp
    simp only at hp
    cases hdw2 : ((c :: i1t).takeWhile identRest,
        (c :: i1t).dropWhile identRest).2.dropWhile nomMultispace with
    | nil => rw [hdw2] at hp; cases hp
    | cons c2 i4 =>
        simp only at hdw2
        rw [hdw2] at hp
        by_cases hc2 : c2 = ':'
        · subst hc2
          refine ⟨i4, rfl, ?_⟩
          simp only at hp
          cases hval : CSSDeclaration.parse_value (i4.dropWhile nomMultispace) with
          | none => rw [hval] at hp; cases hp
          | some vp =>
              obtain ⟨⟨v, imp⟩, i6⟩ := vp
              obtain ⟨_, htw, _⟩ := parse_value_some_inv hval
              cases hi5 : i4.dropWhile nomMultispace with
              | nil => rw [hi5] at htw; exact absurd rfl htw
              | cons e i5t =>
                  refine ⟨e, i5t, rfl, ?_⟩
                  cases he : valOk e with
                  | true => rfl
                  | false =>
                      rw [hi5, List.takeWhile_cons_of_neg (by simp [he])] at htw
                      exact absurd rfl htw
        · exfalso
          have hmatch : (match (c2 :: i4 : List Char) with
              | ':' :: i4 =>
                  match CSSDeclaration.parse_value (i4.dropWhile nomMultispace) with
                  | none => none
                  | some (vp, i6) => some (((c :: i1t).takeWhile identRest, vp), i6)
              | _ => (none : Option ((List Char × (List Char × Bool)) × List Char)))
              = none := by
            split
            · rename_i heq
              exact absurd (by injection heq) hc2
            · rfl
          rw [hmatch] at hp
          cases hp
  · rintro ⟨c, i1t, hdw, hc, i4, hcolon, e, i5t, hval, he⟩
    unfold CSSDeclaration.parse CSSDeclaration.parse_declaration
    rw [hdw, parse_identifier_cons hc]
    simp only
    rw [hcolon]
    simp only
    rw [hval]
    have := parse_value_isSome_of_head i5t he
    cases hv : CSSDeclaration.parse_value (e :: i5t) with
    | none => rw [hv] at this; cases this
    | some vp =>
        obtain ⟨vpv, i6⟩ := vp
        rfl

/-- C7, witness: the success characterization instantiated at `color: red`. -/
theorem c7_parse_success_iff_witness :
    (CSSDeclaration.parse "color: red".data).isSome = true :=
  (c7_parse_success_iff "color: red".data).mpr
    ⟨'c', "olor: red".data, by decide, by decide,
      " red".data, by decide, 'r', "ed".data, by decide, by decide⟩

/-- C8, counterexample: `Declaration.parse` itself does *not* consume the
trailing `;` — on `"a: b;c"` it succeeds with remainder `";c"`, which begins
with that `;`. -/
theorem c8_counterexample :
    CSSDeclaration.parse "a: b;c".data =
        some (⟨"a".data, "b".data, false⟩, ";c".data) ∧
      ";c".data.headI = ';' := by
  decide

/-- C8, amended: the single optional trailing `;` is consumed not by
`Declaration.parse` (which leaves it in its remainder) but by the
declaration-list item parser wrapping it (`opt(char(';'))`): whenever
`Declaration.parse` succeeds, the item parser succeeds with the same
declaration and a remainder stripped of one leading `;` when present —
the `;` is optional, a declaration may also end at end-of-input or `}`. -/
theorem c8_semicolon_consumption (input : List Char) (d : CSSDeclaration)
    (r : List Char) (h : CSSDeclaration.parse input = some (d, r)) :
    (∀ r2, r = ';' :: r2 → declItem input = some (d, r2)) ∧
      ((∀ r2, r ≠ ';' :: r2) → declItem input = some (d, r)) := by
  obtain ⟨c, t, hdw, hc⟩ := parse_head_ident h
  have hds : dropStrays input = input := dropStrays_no_semi hdw (identFirst_ne_semi hc)
  have hpp : CSSDeclaration.parse (input.dropWhile nomMultispace) = some (d, r) := by
    rw [parse_dropWhile_ms]
    exact h
  constructor
  · intro r2 hr
    subst hr
    unfold declItem
    rw [hds, hpp]
    exact rfl
  · intro hr
    unfold declItem
    rw [hds, hpp]
    cases r with
    | nil => rfl
    | cons cr tr =>
        show (match (cr :: tr : List Char) with
          | ';' :: i4 => some (d, i4)
          | _ => some (d, cr :: tr)) = some (d, cr :: tr)
        split
        · rename_i i4 heq
          exact absurd heq (hr i4)
        · rfl

/-- C8, witness: on `"a: b;c"` the item parser consumes the `;`. -/
theorem c8_semicolon_consumption_witness :
    declItem "a: b;c".data = some (⟨"a".data, "b".data, false⟩, "c".data) :=
  (c8_semicolon_consumption "a: b;c".data ⟨"a".data, "b".data, false⟩ ";c".data
    (by decide)).1 "c".data (by decide)

/-- C9: `Stylesheet.from_string` never returns an error — `many0` cannot
fail, so the error branch is unreachable and every input (including garbage)
yields a stylesheet of the leading parsable rules. -/
theorem c9_from_string_total (input : List Char) :
    (Stylesheet.from_string input).isSome = true := by
  have htot : (many0 CSSRule.parse input).isSome = true :=
    many0_isSome (fun inp a r hh => (rule_parse_some_inv hh).2.2.1) input
  unfold Stylesheet.from_string
  cases hp : Stylesheet.parse input with
  | none =>
      unfold Stylesheet.parse at hp
      rw [hp] at htot
      cases htot
  | some pr =>
      obtain ⟨rules, rem⟩ := pr
      rfl

/-- C10, counterexample: a parsed declaration can have an *empty* value:
`"a:\u00A0"` parses (U+00A0 is not nom whitespace, so it is taken as the raw
value, then Rust `trim` removes it), producing value `""`. -/
theorem c10_counterexample :
    CSSDeclaration.from_string "a:\u00A0".data = some ⟨"a".data, [], false⟩ ∧
      (⟨"a".data, [], false⟩ : CSSDeclaration).value = [] := by
  decide

theorem declInv_part {d : CSSDeclaration} (h : declInv d) : declPartInv d :=
  ⟨h.1, h.2.2.2.2, h.2.2.2.1⟩

/-- C10, amended: every declaration produced by any of the four parse entry
points has a non-empty name, a value containing none of `;{}!`, and a value
without leading or trailing whitespace — but its value may be empty. -/
theorem c10_parsed_invariant (input : List Char) :
    (∀ d r, CSSDeclaration.parse input = some (d, r) → declPartInv d) ∧
      (∀ dl r, CSSDeclarationList.parse input = some (dl, r) →
        ∀ d ∈ dl.declarations, declPartInv d) ∧
      (∀ ru r, CSSRule.parse input = some (ru, r) →
        ∀ d ∈ ru.declarations.declarations, declPartInv d) ∧
      (∀ S, Stylesheet.from_string input = some S →
        ∀ ru ∈ S.rules, ∀ d ∈ ru.declarations.declarations, declPartInv d) := by
  refine ⟨?_, ?_, ?_, ?_⟩
  · intro d r h
    exact declInv_part (parse_some_inv h).1
  · intro dl r h
    rw [CSSDeclarationList_parse_eq] at h
    cases hm : many0 declItem input with
    | none => rw [hm] at h; cases h
    | some pr =>
        obtain ⟨ds, rem⟩ := pr
        rw [hm] at h
        simp only [Option.some.injEq, Prod.mk.injEq] at h
        obtain ⟨rfl, rfl⟩ := h
        intro d hd
        exact declInv_part
          (many0_mem (fun inp a rr hh => (declItem_some_inv hh).1) hm d hd)
  · intro ru r h d hd
    exact declInv_part ((rule_parse_some_inv h).1.2.2 d hd)
  · intro S h ru hru d hd
    unfold Stylesheet.from_string at h
    cases hp : Stylesheet.parse input with
    | none => rw [hp] at h; cases h
    | some pr =>
        obtain ⟨rules, rem⟩ := pr
        rw [hp] at h
        simp only [Option.some.injEq] at h
        subst h
        have := many0_mem (fun inp a rr hh => (rule_parse_some_inv hh).1) hp ru hru
        exact declInv_part (this.2.2 d hd)

/-- C10, witness: the amended invariant at `color: red`. -/
theorem c10_parsed_invariant_witness :
    declPartInv ⟨"color".data, "red".data, false⟩ :=
  (c10_parsed_invariant "color: red".data).1 ⟨"color".data, "red".data, false⟩ []
    (by decide)
